import Mathlib

/-!
Verification of the mosaic-core library against its specification.

Bytes are modelled as `List Nat` (each entry intended `< 256`; arithmetic is
taken mod 256 wherever the Rust code could overflow).  Fallible Rust functions
become `Except Err _`; Rust computations that can panic or diverge are wrapped
in an outer `Option`, where `none` marks the abnormal outcome (an
out-of-bounds slice, a failing `try_into().unwrap()`, a `copy_from_slice`
length mismatch, or a loop that cannot terminate).
-/

set_option maxHeartbeats 1600000
set_option maxRecDepth 8192

namespace Mosaic

/-- Structured error kinds, after `InnerError` in `src/error.rs` (only the
variants reachable from the functions embedded here). -/
inductive Err where
  | endOfInput
  | invalidLength
  | invalidFilterElementForFunction
  | unknownFilterElement (u : Nat)
  | tooManyDataElements (n : Nat)
  | filterElementTooLong
  | timeOutOfRange
  | timeIsBeyondLeapSecondData
  | badPassword
  | unsupportedEncryptedSecretKeyVersion (v : Nat)
  | excessiveScryptLogNParameter (n : Nat)
  | tagTooLong
  | dataTooLong
  | invalidMessage
  | invalidAddressBytes
  | ed25519
  deriving DecidableEq, Repr

/-- Byte at index `i`, defaulting to 0 out of range (all uses in theorems are
guarded so that the default is never observed). -/
def idx (l : List Nat) (i : Nat) : Nat := (l[i]?).getD 0

/-- The sub-slice `l[i..j]` of a byte string. -/
def sub (l : List Nat) (i j : Nat) : List Nat := (l.drop i).take (j - i)

/-- Rust slice indexing `l[i..j]`, which panics (here: `none`) when the range
is out of bounds. -/
def sliceChk (l : List Nat) (i j : Nat) : Option (List Nat) :=
  if i ≤ j ∧ j ≤ l.length then some (sub l i j) else none

/-- Rust `<[u8; 8]>::try_from(slice).unwrap()`: succeeds only on length 8. -/
def tryInto8 (l : List Nat) : Option (List Nat) :=
  if l.length = 8 then some l else none

/-- Little-endian u16 read at offset `i`. -/
def u16le (l : List Nat) (i : Nat) : Nat := idx l i + 256 * idx l (i + 1)

/-- The 3-byte little-endian length field read of `src/message.rs`
(`bytes[1] + (bytes[2]<<8) + (bytes[3]<<16)`). -/
def u24le (l : List Nat) (i : Nat) : Nat :=
  idx l i + 256 * idx l (i + 1) + 65536 * idx l (i + 2)

/-- Little-endian u32 read at offset `i` (used to state the spec's claimed
`length:u32 LE` header field). -/
def u32le (l : List Nat) (i : Nat) : Nat :=
  idx l i + 256 * idx l (i + 1) + 65536 * idx l (i + 2) + 16777216 * idx l (i + 3)

/-- Big-endian natural read of a whole byte string. -/
def beNat (l : List Nat) : Nat := l.foldl (fun acc b => acc * 256 + b) 0

/-- Rust `i64::from_be_bytes` on an 8-byte string. -/
def i64FromBe (l : List Nat) : Int :=
  let u := beNat l
  if u < 2 ^ 63 then (u : Int) else (u : Int) - 2 ^ 64

/-- Largest `i64` value (`MAX_NANOSECONDS` in `src/timestamp.rs`). -/
def i64Max : Int := 9223372036854775807

/-- Rust `i64::to_be_bytes` of a timestamp value (used by
`Timestamp::to_bytes`). -/
def i64ToBe (t : Int) : List Nat :=
  let u := (t % (2 ^ 64 : Int)).toNat
  [u / 2 ^ 56 % 256, u / 2 ^ 48 % 256, u / 2 ^ 40 % 256, u / 2 ^ 32 % 256,
   u / 2 ^ 24 % 256, u / 2 ^ 16 % 256, u / 2 ^ 8 % 256, u % 256]

/-- Rust `Timestamp::from_bytes`: big-endian i64, rejecting negatives. -/
def tsFromBytes (l : List Nat) : Except Err Int :=
  if i64FromBe l < 0 then .error .timeOutOfRange else .ok (i64FromBe l)

/-! Timestamp (`src/timestamp.rs`).  A `Timestamp` wraps an `i64` nanosecond
count with the safety invariant that the value is never negative; here the
inner value is an `Int` and the invariant appears as a hypothesis. -/

/-- Unixtime at which the baked-in leap-second table expires
(`LEAP_SECONDS_EXPIRE` in `src/timestamp.rs`). -/
def LEAP_SECONDS_EXPIRE : Nat := 1766880000

/-- Offset between NTP time and unixtime (`NTP_TIME_UNIXTIME_OFFSET`). -/
def NTP_TIME_UNIXTIME_OFFSET : Nat := 2208988800

/-- The baked-in IANA leap second table, in NTP time
(`iana_ntp_leap_seconds`). -/
def ianaNtpLeapSeconds : List Nat :=
  [2272060800, 2287785600, 2303683200, 2335219200, 2366755200, 2398291200,
   2429913600, 2461449600, 2492985600, 2524521600, 2571782400, 2603318400,
   2634854400, 2698012800, 2776982400, 2840140800, 2871676800, 2918937600,
   2950473600, 2982009600, 3029443200, 3076704000, 3124137600, 3345062400,
   3439756800, 3550089600, 3644697600, 3692217600]

/-- The leap second table converted to unixtime, as in
`iana_ntp_leap_seconds().iter().map(|ntp| ntp - NTP_TIME_UNIXTIME_OFFSET)`. -/
def leapUnixtimes : List Nat :=
  ianaNtpLeapSeconds.map (fun ntp => ntp - NTP_TIME_UNIXTIME_OFFSET)

/-- Count of leap seconds strictly before `seconds`, as computed inside
`Timestamp::from_unixtime` (`.filter(|x| *x < seconds).count()`). -/
def leapsBefore (seconds : Nat) : Nat :=
  (leapUnixtimes.filter (fun x => x < seconds)).length

/-- Loop translation of the adjusted leap count of `Timestamp::to_unixtime`:
`iter().enumerate().map(|(i, ntp)| ntp - NTP_TIME_UNIXTIME_OFFSET + 1 + i)
.filter(|x| *x < unadjusted_secs).count()`, with the running index `i`
made explicit. -/
def adjLeapCountFrom : List Nat → Nat → Nat → Nat
  | [], _, _ => 0
  | x :: rest, i, u =>
    (if x + 1 + i < u then 1 else 0) + adjLeapCountFrom rest (i + 1) u

/-- Rust `i64::checked_add` (on values already within i64 range). -/
def checkedAdd (a b : Int) : Option Int :=
  if -(2 ^ 63 : Int) ≤ a + b ∧ a + b ≤ i64Max then some (a + b) else none

/-- Rust `i64::checked_mul` (on values already within i64 range). -/
def checkedMul (a b : Int) : Option Int :=
  if -(2 ^ 63 : Int) ≤ a * b ∧ a * b ≤ i64Max then some (a * b) else none

/-- Rust `Timestamp::from_unixtime(seconds, subsec_nanoseconds)`. -/
def fromUnixtime (seconds subsec : Nat) : Except Err Int :=
  if subsec > 999999999 then .error .timeOutOfRange
  else if seconds > LEAP_SECONDS_EXPIRE then .error .timeIsBeyondLeapSecondData
  else
    match checkedAdd (seconds : Int) (leapsBefore seconds : Int) with
    | none => .error .timeOutOfRange
    | some a =>
      match checkedMul a 1000000000 with
      | none => .error .timeOutOfRange
      | some b =>
        match checkedAdd b (subsec : Int) with
        | none => .error .timeOutOfRange
        | some c => .ok c

/-- Rust `Timestamp::to_unixtime`.  The `self.0 as u64` casts reduce the i64
value mod 2^64 (a no-op on every valid, non-negative timestamp). -/
def toUnixtime (t : Int) : Nat × Nat :=
  let tu := (t % (2 ^ 64 : Int)).toNat
  let unadjusted := tu / 1000000000
  let nanosecs := tu % 1000000000
  let leaps := adjLeapCountFrom leapUnixtimes 0 unadjusted
  (unadjusted - leaps, nanosecs)

/-- Rust `impl Sub<Duration> for Timestamp`: `d` is the duration in
nanoseconds (`Duration::as_nanos`, a u128). -/
def tsSubDur (t : Int) (d : Nat) : Int :=
  if t ≤ (d : Int) then 0 else t - (d : Int)

/-- Rust `impl Add<Duration> for Timestamp`: saturates at `Timestamp::MAX`. -/
def tsAddDur (t : Int) (d : Nat) : Int :=
  if i64Max < (d : Int) + t then i64Max else t + (d : Int)

/-- Shifting both the index base and the bound by one leaves the adjusted
leap count unchanged. -/
theorem adjLeapCountFrom_shift (l : List Nat) :
    ∀ i u, adjLeapCountFrom l (i + 1) (u + 1) = adjLeapCountFrom l i u := by
  induction l with
  | nil => intro i u; rfl
  | cons x rest ih =>
    intro i u
    simp only [adjLeapCountFrom, ih]
    congr 1
    by_cases h : x + 1 + i < u
    · rw [if_pos (by omega), if_pos h]
    · rw [if_neg (by omega), if_neg h]

/-- If every entry is at least the bound, the adjusted leap count is zero. -/
theorem adjLeapCountFrom_all_ge (l : List Nat) :
    ∀ i s, (∀ y ∈ l, s ≤ y) → adjLeapCountFrom l i s = 0 := by
  induction l with
  | nil => intro i s _; rfl
  | cons x rest ih =>
    intro i s h
    have hx : s ≤ x := h x (by simp)
    simp only [adjLeapCountFrom]
    rw [if_neg (by omega), ih (i + 1) s (fun y hy => h y (by simp [hy]))]

/-- If every entry is at least the bound, no entry is strictly below it. -/
theorem filter_lt_all_ge (l : List Nat) (s : Nat) (h : ∀ y ∈ l, s ≤ y) :
    (l.filter (fun x => x < s)).length = 0 := by
  rw [List.length_eq_zero, List.filter_eq_nil_iff]
  intro a ha
  simp only [decide_eq_true_eq]
  have := h a ha
  omega

/-- Core leap-second inverse lemma: for a strictly sorted table, counting the
adjusted instants below `s + k` recovers `k`, the count of raw instants below
`s`.  This is the heart of the `from_unixtime`/`to_unixtime` round trip. -/
theorem adjLeapCountFrom_filter (l : List Nat) (hl : l.Sorted (· < ·)) :
    ∀ s, adjLeapCountFrom l 0 (s + (l.filter (fun x => x < s)).length)
      = (l.filter (fun x => x < s)).length := by
  induction l with
  | nil => intro s; rfl
  | cons x rest ih =>
    intro s
    rw [List.sorted_cons] at hl
    by_cases hx : x < s
    · have hfil :
          ((x :: rest).filter (fun x => x < s)).length
            = (rest.filter (fun x => x < s)).length + 1 := by
        simp [List.filter_cons, hx]
      rw [hfil]
      simp only [adjLeapCountFrom]
      rw [if_pos (by omega)]
      have hshift :
          adjLeapCountFrom rest 1 (s + ((rest.filter (fun x => x < s)).length + 1))
            = adjLeapCountFrom rest 0 (s + (rest.filter (fun x => x < s)).length) := by
        have := adjLeapCountFrom_shift rest 0 (s + (rest.filter (fun x => x < s)).length)
        simpa [Nat.add_assoc] using this
      rw [hshift, ih hl.2 s]
      omega
    · have hall : ∀ y ∈ x :: rest, s ≤ y := by
        intro y hy
        rcases List.mem_cons.mp hy with h | h
        · omega
        · have := hl.1 y h; omega
      have hfil : ((x :: rest).filter (fun x => x < s)).length = 0 :=
        filter_lt_all_ge _ s hall
      rw [hfil, Nat.add_zero]
      exact adjLeapCountFrom_all_ge _ 0 s hall

/-- The baked-in leap-second table is strictly increasing. -/
theorem leapUnixtimes_sorted : leapUnixtimes.Sorted (· < ·) := by
  unfold leapUnixtimes ianaNtpLeapSeconds
  decide

/-- There are at most 28 leap seconds in the table. -/
theorem leapsBefore_le (s : Nat) : leapsBefore s ≤ 28 := by
  have h := List.length_filter_le (fun x => x < s) leapUnixtimes
  simpa [leapsBefore] using h

/-- C6: for every seconds value `s ≤ 1_766_880_000` (the leap-second expiry)
and every subsecond nanoseconds value `n ≤ 999_999_999`,
`Timestamp::from_unixtime(s, n)` succeeds, and `to_unixtime()` on the result
returns exactly `(s, n)` — including at every leap-second boundary of the
baked-in IANA table. -/
theorem timestamp_unixtime_round_trip (s n : Nat)
    (hs : s ≤ 1766880000) (hn : n ≤ 999999999) :
    fromUnixtime s n = .ok (((s + leapsBefore s) * 1000000000 + n : Nat) : Int)
    ∧ toUnixtime (((s + leapsBefore s) * 1000000000 + n : Nat) : Int) = (s, n) := by
  have hk := leapsBefore_le s
  constructor
  · unfold fromUnixtime
    rw [if_neg (by omega), if_neg (by simp only [LEAP_SECONDS_EXPIRE]; omega)]
    have h1 : checkedAdd (s : Int) (leapsBefore s : Int)
        = some ((s : Int) + (leapsBefore s : Int)) := by
      unfold checkedAdd i64Max
      rw [if_pos (by push_cast; omega)]
    have h2 : checkedMul ((s : Int) + (leapsBefore s : Int)) 1000000000
        = some (((s : Int) + (leapsBefore s : Int)) * 1000000000) := by
      unfold checkedMul i64Max
      rw [if_pos (by push_cast; omega)]
    have h3 : checkedAdd (((s : Int) + (leapsBefore s : Int)) * 1000000000) (n : Int)
        = some (((s : Int) + (leapsBefore s : Int)) * 1000000000 + (n : Int)) := by
      unfold checkedAdd i64Max
      rw [if_pos (by push_cast; omega)]
    simp only [h1, h2, h3]
    have : (((s + leapsBefore s) * 1000000000 + n : Nat) : Int)
        = ((s : Int) + (leapsBefore s : Int)) * 1000000000 + (n : Int) := by
      push_cast
      ring
    rw [this]
  · have hTlt : (s + leapsBefore s) * 1000000000 + n < 2 ^ 64 := by omega
    unfold toUnixtime
    have hmod : ((((s + leapsBefore s) * 1000000000 + n : Nat) : Int) % (2 ^ 64 : Int))
        = (((s + leapsBefore s) * 1000000000 + n : Nat) : Int) := by
      apply Int.emod_eq_of_lt (by positivity)
      exact_mod_cast hTlt
    have hdiv : ((s + leapsBefore s) * 1000000000 + n) / 1000000000 = s + leapsBefore s := by
      omega
    have hrem : ((s + leapsBefore s) * 1000000000 + n) % 1000000000 = n := by
      omega
    have hadj : adjLeapCountFrom leapUnixtimes 0 (s + leapsBefore s) = leapsBefore s := by
      have hfil : leapsBefore s = (leapUnixtimes.filter (fun x => x < s)).length := rfl
      rw [hfil]
      exact adjLeapCountFrom_filter leapUnixtimes leapUnixtimes_sorted s
    simp only [hmod, Int.toNat_natCast, hdiv, hrem, hadj]
    simp

/-- Witness for C6 at the 1974-01-01 leap-second boundary. -/
theorem timestamp_unixtime_round_trip_witness :
    fromUnixtime 126230400 500000000
      = .ok (((126230400 + leapsBefore 126230400) * 1000000000 + 500000000 : Nat) : Int)
    ∧ toUnixtime (((126230400 + leapsBefore 126230400) * 1000000000 + 500000000 : Nat) : Int)
      = (126230400, 500000000) :=
  timestamp_unixtime_round_trip 126230400 500000000 (by decide) (by decide)

/-- C10: adding a `Duration` to a `Timestamp` and subtracting a `Duration`
from a `Timestamp` are saturating: subtraction that would go below zero
returns `Timestamp::MIN` (0), addition that would exceed `i64::MAX` returns
`Timestamp::MAX`, and in every case the resulting nanosecond value stays
within `[0, i64::MAX]`. -/
theorem timestamp_duration_saturating (t : Int) (d : Nat)
    (h0 : 0 ≤ t) (hmax : t ≤ i64Max) :
    (0 ≤ tsSubDur t d ∧ tsSubDur t d ≤ i64Max)
    ∧ (0 ≤ tsAddDur t d ∧ tsAddDur t d ≤ i64Max)
    ∧ (t ≤ (d : Int) → tsSubDur t d = 0)
    ∧ (i64Max < (d : Int) + t → tsAddDur t d = i64Max) := by
  unfold tsSubDur tsAddDur i64Max at *
  have hd : (0 : Int) ≤ (d : Int) := Int.natCast_nonneg d
  split_ifs <;> refine ⟨by omega, by omega, ?_, ?_⟩ <;> intro h <;> omega

/-- Witness for C10 at a saturating subtraction and a saturating addition. -/
theorem timestamp_duration_saturating_witness :
    (0 ≤ tsSubDur 5 10 ∧ tsSubDur 5 10 ≤ i64Max)
    ∧ (0 ≤ tsAddDur 5 10 ∧ tsAddDur 5 10 ≤ i64Max)
    ∧ ((5 : Int) ≤ ((10 : Nat) : Int) → tsSubDur 5 10 = 0)
    ∧ (i64Max < ((10 : Nat) : Int) + 5 → tsAddDur 5 10 = i64Max) :=
  timestamp_duration_saturating 5 10 (by decide) (by decide)

/-! EncryptedSecretKey (`src/signature.rs`).  The scrypt key derivation is an
external primitive the spec treats as opaque; it appears as a function
argument `kdf log_n password salt` returning the 40-byte symmetric key. -/

/-- Constant check bytes (`EncryptedSecretKey::CHECK_BYTES`). -/
def CHECK_BYTES : List Nat := [0xb9, 0x60, 0xa1, 0xe2]

/-- Largest accepted scrypt `log_n` (`EncryptedSecretKey::MAX_LOG_N`). -/
def MAX_LOG_N : Nat := 22

/-- Rust `EncryptedSecretKey::xor_into_first`: XOR the second iterator into
the first slice; a tail of the first beyond the second's length stays
unchanged, extra second elements are ignored. -/
def xorInto (a b : List Nat) : List Nat :=
  List.zipWith (fun x y => x ^^^ y) a b ++ a.drop b.length

/-- Rust `EncryptedSecretKey::from_secret_key(secret_key, password, log_n)`;
the salt and the four random bytes the Rust code draws from the RNG are
explicit arguments. -/
def fromSecretKey (kdf : Nat → List Nat → List Nat → List Nat)
    (sk pw : List Nat) (logN : Nat) (salt rand4 : List Nat) : List Nat :=
  let symmetricKey := kdf logN pw salt
  let randomizedCheckbytes := xorInto rand4 CHECK_BYTES
  let concatenation := sk ++ rand4 ++ randomizedCheckbytes
  [1, logN] ++ salt ++ xorInto symmetricKey concatenation

/-- Rust `EncryptedSecretKey::to_secret_key(password)`. -/
def toSecretKey (kdf : Nat → List Nat → List Nat → List Nat)
    (esk pw : List Nat) : Except Err (List Nat) :=
  let version := idx esk 0
  if version ≠ 1 then .error (.unsupportedEncryptedSecretKeyVersion version)
  else
    let logN := idx esk 1
    if logN > MAX_LOG_N then .error (.excessiveScryptLogNParameter logN)
    else
      let salt := sub esk 2 18
      let symmetricKey := kdf logN pw salt
      let concatenation := xorInto symmetricKey (sub esk 18 58)
      let secretKey := concatenation.take 32
      let checkarea := concatenation.drop 32
      let rand4 := checkarea.take 4
      let checkbytes := xorInto (checkarea.drop 4) rand4
      if checkbytes ≠ CHECK_BYTES then .error .badPassword
      else .ok (secretKey.take 32)

/-- XOR of the two 4-byte halves of the symmetric key's check region (bytes
32..36 and 36..40 of the derived key); the decryption check passes exactly
when this region agrees between the two derived keys. -/
def checkRegion (key : List Nat) : List Nat :=
  xorInto (sub key 32 36) (sub key 36 40)

theorem xorInto_length (a b : List Nat) : (xorInto a b).length = a.length := by
  simp [xorInto]
  omega

theorem zipWith_xor_take (a b : List Nat) (n : Nat) :
    (List.zipWith (fun x y => x ^^^ y) a b).take n
      = List.zipWith (fun x y => x ^^^ y) (a.take n) (b.take n) := by
  induction a generalizing b n with
  | nil => simp
  | cons x xs ih =>
    cases b with
    | nil => simp
    | cons y ys =>
      cases n with
      | zero => simp
      | succ m => simp [ih]

theorem zipWith_xor_drop (a b : List Nat) (n : Nat) :
    (List.zipWith (fun x y => x ^^^ y) a b).drop n
      = List.zipWith (fun x y => x ^^^ y) (a.drop n) (b.drop n) := by
  induction a generalizing b n with
  | nil => simp
  | cons x xs ih =>
    cases b with
    | nil => simp
    | cons y ys =>
      cases n with
      | zero => simp
      | succ m => simp [ih]

/-- With equal lengths `xor_into_first` is plain pointwise XOR. -/
theorem xorInto_eq_zipWith (a b : List Nat) (h : a.length ≤ b.length) :
    xorInto a b = List.zipWith (fun x y => x ^^^ y) a b := by
  simp [xorInto, List.drop_eq_nil_of_le h]

theorem zipWith_xor_cancel_left (a : List Nat) :
    ∀ b : List Nat,
      List.zipWith (fun x y => x ^^^ y) a (List.zipWith (fun x y => x ^^^ y) a b) = b.take a.length := by
  induction a with
  | nil => intro b; simp
  | cons x xs ih =>
    intro b
    cases b with
    | nil => simp
    | cons y ys => simp [ih, Nat.xor_cancel_left]

theorem zipWith_xor_cancel_right (a : List Nat) :
    ∀ b : List Nat,
      List.zipWith (fun x y => x ^^^ y) (List.zipWith (fun x y => x ^^^ y) a b) a = b.take a.length := by
  induction a with
  | nil => intro b; simp
  | cons x xs ih =>
    intro b
    cases b with
    | nil => simp
    | cons y ys =>
      simp [ih, Nat.xor_comm x y, Nat.xor_cancel_right]

/-- XOR-ing the same key in twice is the identity. -/
theorem xorInto_cancel (a b : List Nat) (h : a.length = b.length) :
    xorInto a (xorInto a b) = b := by
  rw [xorInto_eq_zipWith a b (by omega),
    xorInto_eq_zipWith _ _ (by simp [List.length_zipWith]; omega),
    zipWith_xor_cancel_left a b, h, List.take_length]

/-- XOR-ing `(a ⊕ b) ⊕ a` recovers `b`. -/
theorem xorInto_cancel_comm (a b : List Nat) (h : a.length = b.length) :
    xorInto (xorInto a b) a = b := by
  rw [xorInto_eq_zipWith a b (by omega),
    xorInto_eq_zipWith _ _ (by simp [List.length_zipWith]),
    zipWith_xor_cancel_right a b, h, List.take_length]

/-- Scalar core of the decryption check: if the recovered check byte matches,
the XOR-folded check regions of the two symmetric keys agree. -/
theorem xor_scalar_cancel (A A' B B' R C : Nat)
    (h : (B' ^^^ (B ^^^ (R ^^^ C))) ^^^ (A' ^^^ (A ^^^ R)) = C) :
    A' ^^^ B' = A ^^^ B := by
  apply Nat.eq_of_testBit_eq
  intro i
  have hb := congrArg (fun n => n.testBit i) h
  simp only [Nat.testBit_xor] at hb ⊢
  revert hb
  cases A.testBit i <;> cases A'.testBit i <;> cases B.testBit i <;>
    cases B'.testBit i <;> cases R.testBit i <;> cases C.testBit i <;> decide

/-- List form of `xor_scalar_cancel` over the four check bytes. -/
theorem zipWith_check_cancel (a a' b b' r c : List Nat)
    (ha : a.length = 4) (ha' : a'.length = 4) (hb : b.length = 4) (hb' : b'.length = 4)
    (hr : r.length = 4) (hc : c.length = 4)
    (h : List.zipWith (fun x y => x ^^^ y)
          (List.zipWith (fun x y => x ^^^ y) b'
            (List.zipWith (fun x y => x ^^^ y) b (List.zipWith (fun x y => x ^^^ y) r c)))
          (List.zipWith (fun x y => x ^^^ y) a'
            (List.zipWith (fun x y => x ^^^ y) a r)) = c) :
    List.zipWith (fun x y => x ^^^ y) a' b' = List.zipWith (fun x y => x ^^^ y) a b := by
  apply List.ext_getElem (by simp [List.length_zipWith, ha, ha', hb, hb'])
  intro i h1 h2
  have hbig : i < (List.zipWith (fun x y => x ^^^ y)
      (List.zipWith (fun x y => x ^^^ y) b'
        (List.zipWith (fun x y => x ^^^ y) b (List.zipWith (fun x y => x ^^^ y) r c)))
      (List.zipWith (fun x y => x ^^^ y) a'
        (List.zipWith (fun x y => x ^^^ y) a r))).length := by
    simp only [List.length_zipWith, ha, ha', hb, hb', hr, hc] at h1 ⊢
    omega
  have hi := List.getElem_of_eq h hbig
  simp only [List.getElem_zipWith] at hi ⊢
  exact xor_scalar_cancel _ _ _ _ _ _ hi

/-- Evaluation of `to_secret_key` on a freshly encrypted container, for an
arbitrary decryption password `q`. -/
theorem toSecretKey_eval (kdf : Nat → List Nat → List Nat → List Nat)
    (q : List Nat) (logN : Nat) (salt E : List Nat)
    (hsalt : salt.length = 16) (hE : E.length = 40) (hlog : logN ≤ 22) :
    toSecretKey kdf ([1, logN] ++ salt ++ E) q
      = (if xorInto ((xorInto (kdf logN q salt) E).drop 32 |>.drop 4)
              ((xorInto (kdf logN q salt) E).drop 32 |>.take 4) ≠ CHECK_BYTES
         then Except.error Err.badPassword
         else Except.ok (((xorInto (kdf logN q salt) E).take 32).take 32)) := by
  have h0 : idx ([1, logN] ++ salt ++ E) 0 = 1 := by simp [idx]
  have h1 : idx ([1, logN] ++ salt ++ E) 1 = logN := by simp [idx]
  have hsub1 : sub ([1, logN] ++ salt ++ E) 2 18 = salt := by
    show (([1, logN] ++ salt ++ E).drop 2).take 16 = salt
    have hdr : ([1, logN] ++ salt ++ E).drop 2 = salt ++ E := rfl
    rw [hdr, ← hsalt, List.take_left]
  have hsub2 : sub ([1, logN] ++ salt ++ E) 18 58 = E := by
    show (([1, logN] ++ salt ++ E).drop 18).take 40 = E
    have hdr : ([1, logN] ++ salt ++ E).drop 18 = (salt ++ E).drop 16 := rfl
    rw [hdr, ← hsalt, List.drop_left, List.take_of_length_le (le_of_eq hE)]
  unfold toSecretKey MAX_LOG_N
  simp only [h0, h1, hsub1, hsub2]
  rw [if_neg (by omega), if_neg (by omega)]

/-- C7 (amended): the encrypt/decrypt round trip with the same password
recovers the secret key whenever `log_n ≤ 22`; decryption with a password
whose scrypt-derived key differs from the original's in the XOR-folded check
region (bytes 32..36 XOR bytes 36..40) fails with `BadPassword`.  The scrypt
derivation `kdf` is the external primitive, quantified over. -/
theorem encrypted_secret_key_round_trip
    (kdf : Nat → List Nat → List Nat → List Nat) (sk pw : List Nat) (logN : Nat)
    (salt rand4 : List Nat)
    (hsk : sk.length = 32) (hsalt : salt.length = 16) (hr : rand4.length = 4)
    (hK : ∀ p, (kdf logN p salt).length = 40) (hlog : logN ≤ 22) :
    toSecretKey kdf (fromSecretKey kdf sk pw logN salt rand4) pw = .ok sk
    ∧ ∀ pw', checkRegion (kdf logN pw' salt) ≠ checkRegion (kdf logN pw salt) →
        toSecretKey kdf (fromSecretKey kdf sk pw logN salt rand4) pw' = .error .badPassword := by
  have hK40 : (kdf logN pw salt).length = 40 := hK pw
  have hrc4 : (xorInto rand4 CHECK_BYTES).length = 4 := by rw [xorInto_length, hr]
  have hM40 : (sk ++ rand4 ++ xorInto rand4 CHECK_BYTES).length = 40 := by
    simp [hsk, hr, hrc4]
  have hE40 : (xorInto (kdf logN pw salt) (sk ++ rand4 ++ xorInto rand4 CHECK_BYTES)).length = 40 := by
    rw [xorInto_length, hK40]
  have hfe : fromSecretKey kdf sk pw logN salt rand4
      = [1, logN] ++ salt
        ++ xorInto (kdf logN pw salt) (sk ++ rand4 ++ xorInto rand4 CHECK_BYTES) := rfl
  have hMassoc : sk ++ rand4 ++ xorInto rand4 CHECK_BYTES
      = sk ++ (rand4 ++ xorInto rand4 CHECK_BYTES) := List.append_assoc _ _ _
  have htakeM : (sk ++ rand4 ++ xorInto rand4 CHECK_BYTES).take 32 = sk := by
    rw [hMassoc]
    conv_lhs => rw [← hsk]
    exact List.take_left _ _
  have hdropM : (sk ++ rand4 ++ xorInto rand4 CHECK_BYTES).drop 32
      = rand4 ++ xorInto rand4 CHECK_BYTES := by
    rw [hMassoc]
    conv_lhs => rw [← hsk]
    exact List.drop_left _ _
  have ht4 : (rand4 ++ xorInto rand4 CHECK_BYTES).take 4 = rand4 := by
    conv_lhs => rw [← hr]
    exact List.take_left _ _
  have hd4 : (rand4 ++ xorInto rand4 CHECK_BYTES).drop 4 = xorInto rand4 CHECK_BYTES := by
    conv_lhs => rw [← hr]
    exact List.drop_left _ _
  constructor
  · rw [hfe, toSecretKey_eval kdf pw logN salt _ hsalt hE40 hlog]
    have hconc : xorInto (kdf logN pw salt)
        (xorInto (kdf logN pw salt) (sk ++ rand4 ++ xorInto rand4 CHECK_BYTES))
        = sk ++ rand4 ++ xorInto rand4 CHECK_BYTES :=
      xorInto_cancel _ _ (by rw [hK40, hM40])
    rw [hconc, hdropM, hd4, ht4,
      xorInto_cancel_comm rand4 CHECK_BYTES (by rw [hr]; rfl)]
    rw [if_neg (by simp), htakeM, List.take_of_length_le (le_of_eq hsk)]
  · intro pw' hne
    have hK'40 : (kdf logN pw' salt).length = 40 := hK pw'
    rw [hfe, toSecretKey_eval kdf pw' logN salt _ hsalt hE40 hlog]
    rw [if_pos ?hcond]
    case hcond =>
      intro heq
      apply hne
      -- Turn every xorInto into a pointwise zipWith.
      have hEzip : xorInto (kdf logN pw salt) (sk ++ rand4 ++ xorInto rand4 CHECK_BYTES)
          = List.zipWith (fun x y => x ^^^ y) (kdf logN pw salt)
              (sk ++ rand4 ++ xorInto rand4 CHECK_BYTES) :=
        xorInto_eq_zipWith _ _ (by rw [hK40, hM40])
      have hrczip : xorInto rand4 CHECK_BYTES
          = List.zipWith (fun x y => x ^^^ y) rand4 CHECK_BYTES :=
        xorInto_eq_zipWith _ _ (by rw [hr]; rfl)
      have hconczip : xorInto (kdf logN pw' salt)
          (xorInto (kdf logN pw salt) (sk ++ rand4 ++ xorInto rand4 CHECK_BYTES))
          = List.zipWith (fun x y => x ^^^ y) (kdf logN pw' salt)
              (List.zipWith (fun x y => x ^^^ y) (kdf logN pw salt)
                (sk ++ rand4 ++ xorInto rand4 CHECK_BYTES)) := by
        rw [← hEzip]
        exact xorInto_eq_zipWith _ _ (by rw [hK'40, hE40])
      rw [hconczip] at heq
      simp only [zipWith_xor_drop, zipWith_xor_take] at heq
      simp only [hdropM, hd4, ht4] at heq
      simp only [hrczip] at heq
      have hlen1 : (List.zipWith (fun x y => x ^^^ y) (((kdf logN pw' salt).drop 32).drop 4)
          (List.zipWith (fun x y => x ^^^ y) (((kdf logN pw salt).drop 32).drop 4)
            (List.zipWith (fun x y => x ^^^ y) rand4 CHECK_BYTES))).length
          ≤ (List.zipWith (fun x y => x ^^^ y) (((kdf logN pw' salt).drop 32).take 4)
          (List.zipWith (fun x y => x ^^^ y) (((kdf logN pw salt).drop 32).take 4) rand4)).length := by
        simp [List.length_zipWith, hK40, hK'40, hr]
      rw [xorInto_eq_zipWith _ _ hlen1] at heq
      have hzz := zipWith_check_cancel
        (((kdf logN pw salt).drop 32).take 4) (((kdf logN pw' salt).drop 32).take 4)
        (((kdf logN pw salt).drop 32).drop 4) (((kdf logN pw' salt).drop 32).drop 4)
        rand4 CHECK_BYTES
        (by simp [hK40]) (by simp [hK'40]) (by simp [hK40]) (by simp [hK'40])
        hr (by rfl) heq
      -- Identify both sides with `checkRegion`.
      have hcrK' : checkRegion (kdf logN pw' salt)
          = List.zipWith (fun x y => x ^^^ y) (((kdf logN pw' salt).drop 32).take 4)
              (((kdf logN pw' salt).drop 32).drop 4) := by
        unfold checkRegion
        have hb : sub (kdf logN pw' salt) 36 40 = ((kdf logN pw' salt).drop 32).drop 4 := by
          show ((kdf logN pw' salt).drop 36).take 4 = ((kdf logN pw' salt).drop 32).drop 4
          rw [List.drop_drop]
          exact List.take_of_length_le (by simp [hK'40])
        have ha : sub (kdf logN pw' salt) 32 36 = ((kdf logN pw' salt).drop 32).take 4 := rfl
        rw [ha, hb]
        exact xorInto_eq_zipWith _ _ (by simp [hK'40])
      have hcrK : checkRegion (kdf logN pw salt)
          = List.zipWith (fun x y => x ^^^ y) (((kdf logN pw salt).drop 32).take 4)
              (((kdf logN pw salt).drop 32).drop 4) := by
        unfold checkRegion
        have hb : sub (kdf logN pw salt) 36 40 = ((kdf logN pw salt).drop 32).drop 4 := by
          show ((kdf logN pw salt).drop 36).take 4 = ((kdf logN pw salt).drop 32).drop 4
          rw [List.drop_drop]
          exact List.take_of_length_le (by simp [hK40])
        have ha : sub (kdf logN pw salt) 32 36 = ((kdf logN pw salt).drop 32).take 4 := rfl
        rw [ha, hb]
        exact xorInto_eq_zipWith _ _ (by simp [hK40])
      rw [hcrK', hcrK]
      exact hzz

/-- Concrete stand-in key derivation for the C7 witness: two passwords mapped
to 40-byte keys whose check regions differ. -/
def eskKdfW : Nat → List Nat → List Nat → List Nat :=
  fun _ p _ => if p = [1] then List.replicate 40 0 else List.replicate 36 0 ++ [1, 0, 0, 0]

/-- Witness for C7 (amended) at a concrete key derivation, secret key, salt
and random bytes. -/
theorem encrypted_secret_key_round_trip_witness :
    toSecretKey eskKdfW
        (fromSecretKey eskKdfW (List.replicate 32 7) [1] 18 (List.replicate 16 2) [9, 9, 9, 9]) [1]
      = .ok (List.replicate 32 7)
    ∧ toSecretKey eskKdfW
        (fromSecretKey eskKdfW (List.replicate 32 7) [1] 18 (List.replicate 16 2) [9, 9, 9, 9]) [2]
      = .error .badPassword := by
  have h := encrypted_secret_key_round_trip eskKdfW (List.replicate 32 7) [1] 18
    (List.replicate 16 2) [9, 9, 9, 9] (by decide) (by decide) (by decide)
    (by intro p; simp only [eskKdfW]; split <;> decide) (by decide)
  exact ⟨h.1, h.2 [2] (by decide)⟩

/-- Counterexample for C7 as stated: with `log_n = 23` the round trip with the
SAME password fails with `ExcessiveScryptLogNParameter`, not `Ok(sk)` —
`from_secret_key` never validates `log_n` while `to_secret_key` rejects
`log_n > 22` before consulting scrypt (so the result holds for any kdf). -/
theorem encrypted_secret_key_logn_counterexample :
    toSecretKey (fun _ _ _ => List.replicate 40 0)
      (fromSecretKey (fun _ _ _ => List.replicate 40 0) (List.replicate 32 7) [1] 23
        (List.replicate 16 2) [9, 9, 9, 9]) [1]
      = .error (.excessiveScryptLogNParameter 23) := by
  rfl

/-! Tag (`src/tag.rs`). -/

/-- Rust `OwnedTag::new(ty, value)`: writes the type with `to_be_bytes`, then
the length byte, then the payload. -/
def ownedTagNew (ty : Nat) (value : List Nat) : Except Err (List Nat) :=
  if value.length > 253 then .error .tagTooLong
  else .ok ([ty / 256 % 256, ty % 256, value.length] ++ value)

/-- Rust `Tag::get_type`: little-endian u16 read of the first two bytes. -/
def tagGetType (tag : List Nat) : Nat := u16le tag 0

/-- C8: evaluation showing `OwnedTag::new` writes the tag type with
`to_be_bytes` while `Tag::get_type` (and every other tag constructor in
`src/tag.rs`) uses little-endian: `OwnedTag::new(TagType(1), [])` produces
bytes `[0, 1, 0]` whose `get_type()` reads back 256, and
`OwnedTag::new(TagType(258), [7])` produces `[1, 2, 1, 7]` whose
`get_type()` reads back 513.  The length byte and the payload bytes are as
the claim states, and over-long values are rejected. -/
theorem owned_tag_new_type_flipped :
    ownedTagNew 1 [] = .ok [0, 1, 0]
    ∧ tagGetType [0, 1, 0] = 256
    ∧ ownedTagNew 258 [7] = .ok [1, 2, 1, 7]
    ∧ tagGetType [1, 2, 1, 7] = 513
    ∧ ownedTagNew 1 (List.replicate 254 0) = .error .tagTooLong :=
  ⟨rfl, by decide, rfl, by decide, rfl⟩

/-! Records and filter elements (`src/filter/filter_element.rs`). -/

/-- Modelled from the spec: the `record` module itself is absent from the
provided sources (only `record/record_flags.rs` and `record/json.rs` exist),
so a `Record` is modelled through the results of its O(1) accessors per spec
§4.8: the author and signing public keys (32 bytes), the kind (8 bytes, read
from the address), the timestamp, the 48-byte id and address, and the list of
tags (each one tag's complete bytes). -/
structure Record where
  authorPublicKey : List Nat
  signingPublicKey : List Nat
  kindBytes : List Nat
  timestamp : Int
  idBytes : List Nat
  addressBytes : List Nat
  tags : List (List Nat)

/-- Key-scanning loop shared by the `AUTHOR_KEYS` and `SIGNING_KEYS` arms of
`FilterElement::matches`: 32-byte stride from offset 8, `Ok(false)` when the
next key would overrun `len`. -/
def keysLoop (b pk : List Nat) (len i : Nat) : Option (Except Err Bool) :=
  if i + 32 > len then some (.ok false)
  else
    match sliceChk b i (i + 32) with
    | none => none
    | some chunk =>
      if chunk = pk then some (.ok true) else keysLoop b pk len (i + 32)
termination_by len - i
decreasing_by omega

/-- Kind-scanning loop of the `KINDS` arm: reads 2-byte entries and feeds
them to `Kind::from_bytes` through `<[u8; 8]>::try_from(..).unwrap()` (which
panics on the 2-byte slice). -/
def kindsLoop (b rk : List Nat) (count n : Nat) : Option (Except Err Bool) :=
  if n < count then
    match sliceChk b (8 + n * 2) (8 + n * 2 + 2) with
    | none => none
    | some s =>
      match tryInto8 s with
      | none => none
      | some kb =>
        if rk = kb then some (.ok true) else kindsLoop b rk count (n + 1)
  else some (.ok false)
termination_by count - n
decreasing_by omega

/-- Timestamp-scanning loop of the `TIMESTAMPS` arm (`for w in 0..wordlen-1`). -/
def tsLoop (b tsb : List Nat) (wordlen w : Nat) : Option (Except Err Bool) :=
  if w < wordlen - 1 then
    match sliceChk b (8 + w * 8) (8 + w * 8 + 8) with
    | none => none
    | some chunk =>
      if chunk = tsb then some (.ok true) else tsLoop b tsb wordlen (w + 1)
  else some (.ok false)
termination_by wordlen - 1 - w
decreasing_by omega

/-- Tag-scanning loop shared by the `INCLUDED_TAGS` (`hit = true`) and
`EXCLUDED_TAGS` (`hit = false`) arms: `while len > i + 3`, read the tag at
`i`, return `Ok(hit)` if the record carries an equal tag. -/
def tagsLoop (b : List Nat) (rtags : List (List Nat)) (len : Nat) (hit : Bool)
    (i : Nat) : Option (Except Err Bool) :=
  if len > i + 3 then
    if i + 2 < b.length then
      let taglen := idx b (i + 2)
      match sliceChk b i (i + 3 + taglen) with
      | none => none
      | some chunk =>
        if rtags.contains chunk then some (.ok hit)
        else tagsLoop b rtags len hit (i + 3 + taglen)
    else none
  else some (.ok (!hit))
termination_by len - i
decreasing_by omega

/-- Reference-scanning loop of the `EXCLUDE` arm (`for i in 1..wordlen`):
compares the FIRST 32 BYTES of the record's id and address against the
8-BYTE chunk `self.0[i*8..i*8+8]`, exactly as the source does. -/
def excludeLoop (b idB adB : List Nat) (wordlen i : Nat) : Option (Except Err Bool) :=
  if i < wordlen then
    match sliceChk b (i * 8) (i * 8 + 8) with
    | none => none
    | some chunk =>
      if sub idB 0 32 = chunk then some (.ok true)
      else if sub adB 0 32 = chunk then some (.ok true)
      else excludeLoop b idB adB wordlen (i + 1)
  else some (.ok false)
termination_by wordlen - i
decreasing_by omega

/-- Rust `FilterElement::matches(record)`, dispatching on the type byte
(the Rust `match` on `FilterElementType` constants, written as the
corresponding equality chain). -/
def feMatches (b : List Nat) (r : Record) : Option (Except Err Bool) :=
  if idx b 0 = 0x01 then keysLoop b r.authorPublicKey (idx b 1 * 8) 8
  else if idx b 0 = 0x02 then keysLoop b r.signingPublicKey (idx b 1 * 8) 8
  else if idx b 0 = 0x03 then
    if idx b 1 * 8 < 8 + idx b 7 * 2 then some (.error .invalidLength)
    else kindsLoop b r.kindBytes (idx b 7) 0
  else if idx b 0 = 0x04 then
    -- `0..wordlen - 1` underflows when the word length byte is 0
    if idx b 1 = 0 then none
    else tsLoop b (i64ToBe r.timestamp) (idx b 1) 0
  else if idx b 0 = 0x05 then tagsLoop b r.tags (idx b 1 * 8) true 8
  else if idx b 0 = 0x80 then
    match sliceChk b 8 16 with
    | none => none
    | some s =>
      match tsFromBytes s with
      | .error e => some (.error e)
      | .ok filterTs => some (.ok (decide (filterTs ≤ r.timestamp)))
  else if idx b 0 = 0x81 then
    match sliceChk b 8 16 with
    | none => none
    | some s =>
      match tsFromBytes s with
      | .error e => some (.error e)
      | .ok filterTs => some (.ok (decide (r.timestamp < filterTs)))
  else if idx b 0 = 0x82 then some (.error .invalidFilterElementForFunction)
  else if idx b 0 = 0x83 then some (.error .invalidFilterElementForFunction)
  else if idx b 0 = 0x84 then excludeLoop b r.idBytes r.addressBytes (idx b 1) 1
  else if idx b 0 = 0x85 then tagsLoop b r.tags (idx b 1 * 8) false 8
  else some (.error (.unknownFilterElement (idx b 0)))

/-- The `padded_len!` macro of `src/lib.rs`: `((len + 7) & !7)`. -/
def paddedLen (n : Nat) : Nat := (n + 7) / 8 * 8

/-- Rust `slice::copy_from_slice` into `buf[start..stop]`: panics (`none`)
when the source length differs from the range length or the range is out of
bounds. -/
def copyIntoChk (buf : List Nat) (start stop : Nat) (src : List Nat) : Option (List Nat) :=
  if src.length = stop - start ∧ start ≤ stop ∧ stop ≤ buf.length then
    some (buf.take start ++ src ++ buf.drop stop)
  else none

/-- Writing loop of `OwnedFilterElement::new_kinds`: copies each
`kind.to_bytes()` (8 bytes) into the 2-byte slot `bytes[8+2i..8+2i+2]`. -/
def newKindsLoop (buf : List Nat) (kinds : List (List Nat)) (i : Nat) : Option (List Nat) :=
  match kinds with
  | [] => some buf
  | k :: rest =>
    match copyIntoChk buf (8 + i * 2) (8 + i * 2 + 2) k with
    | none => none
    | some buf2 => newKindsLoop buf2 rest (i + 1)

/-- Rust `OwnedFilterElement::new_kinds(kinds)` (each kind given by its
8-byte `to_bytes()` form). -/
def newKinds (kinds : List (List Nat)) : Option (Except Err (List Nat)) :=
  if kinds.length > 255 then some (.error (.tooManyDataElements 255))
  else
    let numcells := 1 + paddedLen (kinds.length * 2) / 8
    let buf0 := (((List.replicate (numcells * 8) 0).set 0 0x03).set 1 (numcells % 256)).set 7
      (kinds.length % 256)
    match newKindsLoop buf0 kinds 0 with
    | none => none
    | some buf => some (.ok buf)

/-- Writing loop of `OwnedFilterElement::new_exclude`: copies the first 32
bytes of each id into `bytes[8+32i..8+32i+32]`. -/
def newExcludeLoop (buf : List Nat) (ids : List (List Nat)) (i : Nat) : Option (List Nat) :=
  match ids with
  | [] => some buf
  | id :: rest =>
    match copyIntoChk buf (8 + i * 32) (8 + i * 32 + 32) (sub id 0 32) with
    | none => none
    | some buf2 => newExcludeLoop buf2 rest (i + 1)

/-- Rust `OwnedFilterElement::new_exclude(ids)` (each id given as its 48
bytes). -/
def newExclude (ids : List (List Nat)) : Option (Except Err (List Nat)) :=
  let numcells := 1 + ids.length * 4
  if numcells > 255 then some (.error (.tooManyDataElements 63))
  else
    let buf0 := ((List.replicate (numcells * 8) 0).set 0 0x84).set 1 (numcells % 256)
    match newExcludeLoop buf0 ids 0 with
    | none => none
    | some buf => some (.ok buf)

instance {ε α : Type} [DecidableEq ε] [DecidableEq α] : DecidableEq (Except ε α) := fun x y =>
  match x, y with
  | .ok a, .ok b =>
    if h : a = b then isTrue (by rw [h]) else isFalse (fun hc => h (by cases hc; rfl))
  | .error a, .error b =>
    if h : a = b then isTrue (by rw [h]) else isFalse (fun hc => h (by cases hc; rfl))
  | .ok _, .error _ => isFalse (fun hc => Except.noConfusion hc)
  | .error _, .ok _ => isFalse (fun hc => Except.noConfusion hc)

/-- Concrete record used to evaluate the filter-element claims: its id has a
clear top bit, its address a set one, and neither 32-byte lead appears in any
exclude list below. -/
def c1Record : Record :=
  { authorPublicKey := List.replicate 32 1
    signingPublicKey := List.replicate 32 1
    kindBytes := [0, 0, 0, 0, 1, 0, 1, 28]
    timestamp := 0
    idBytes := List.range 48
    addressBytes := List.replicate 48 200
    tags := [] }

/-- C1: evaluation showing the `EXCLUDE` (0x84) arm of
`FilterElement::matches` never matches any record.  An empty exclude element
(no listed 32-byte values at all, so by the claim the record MUST match)
still yields `Ok(false)`; and an element listing the record's own id lead
also yields `Ok(false)` — the arm compares the 32-byte id/address leads
against 8-byte chunks, which can never be equal. -/
theorem exclude_element_never_matches :
    newExclude [] = some (.ok [132, 1, 0, 0, 0, 0, 0, 0])
    ∧ feMatches [132, 1, 0, 0, 0, 0, 0, 0] c1Record = some (.ok false)
    ∧ newExclude [c1Record.idBytes]
        = some (.ok ([132, 5, 0, 0, 0, 0, 0, 0] ++ List.range 32))
    ∧ feMatches ([132, 5, 0, 0, 0, 0, 0, 0] ++ List.range 32) c1Record
        = some (.ok false) := by
  refine ⟨rfl, ?_, rfl, ?_⟩
  · simp [feMatches, excludeLoop, idx, c1Record]
  · simp [feMatches, excludeLoop, idx, c1Record, sliceChk, sub]
    decide

/-- C3: evaluation showing `OwnedFilterElement::new_kinds` panics on every
non-empty kind list — `copy_from_slice` copies the 8-byte `kind.to_bytes()`
into a 2-byte slot — and the `KINDS` (0x03) arm of `FilterElement::matches`
panics on every element with a non-zero count, because its 2-byte slice
cannot convert into the `[u8; 8]` that `Kind::from_bytes` takes.  The 16-byte
element below is a well-formed Kinds element with count 1 carrying
`Kind::MICROBLOG_ROOT`'s low two bytes. -/
theorem kinds_element_panics :
    newKinds [[0, 0, 0, 0, 1, 0, 1, 28]] = none
    ∧ feMatches [3, 2, 0, 0, 0, 0, 0, 1, 1, 28, 0, 0, 0, 0, 0, 0] c1Record = none
    ∧ newKinds [] = some (.ok [3, 1, 0, 0, 0, 0, 0, 0]) := by
  refine ⟨rfl, ?_, rfl⟩
  simp [feMatches, kindsLoop, idx, sliceChk, sub, tryInto8]

/-! Filter-level matching (`Filter::matches` in `src/filter/mod.rs`). -/

/-- Modelled from the spec: `FilterElement::from_bytes_unchecked`, which the
element iterator of `filter/mod.rs` calls, is absent from the provided
`filter_element.rs`; the spec fixes every element's total byte length at
`word_len * 8`, so the iterator yields `bytes[offset..offset + wordlen*8]`
and advances by that length.  This function interleaves that iteration with
`FilterElement::matches` exactly as the `Filter::matches` loop does:
a `InvalidFilterElementForFunction` element error is skipped, `Ok(false)`
short-circuits, any other error propagates, and exhausting the elements
yields `Ok(true)`.  `none` marks a panic (an empty element from a zero word
length, or a truncated element) or divergence. -/
def matchesFrom (bytes : List Nat) (r : Record) (offset : Nat) : Option (Except Err Bool) :=
  if _h1 : bytes.length < offset + 8 then some (.ok true)
  else if _h2 : idx bytes (offset + 1) = 0 then none
  else if _h3 : bytes.length < offset + idx bytes (offset + 1) * 8 then none
  else
    match feMatches (sub bytes offset (offset + idx bytes (offset + 1) * 8)) r with
    | none => none
    | some (.error e) =>
      if e = .invalidFilterElementForFunction then
        matchesFrom bytes r (offset + idx bytes (offset + 1) * 8)
      else some (.error e)
    | some (.ok false) => some (.ok false)
    | some (.ok true) => matchesFrom bytes r (offset + idx bytes (offset + 1) * 8)
termination_by bytes.length - offset
decreasing_by all_goals omega

/-- Rust `Filter::matches(record)`: iterate the elements starting at byte 8. -/
def filterMatches (bytes : List Nat) (r : Record) : Option (Except Err Bool) :=
  matchesFrom bytes r 8

theorem idx_sub (B : List Nat) (o j k : Nat) (h : k < j - o) :
    idx (sub B o j) k = idx B (o + k) := by
  unfold idx sub
  rw [List.getElem?_take, if_pos h, List.getElem?_drop]

theorem keysLoop_no_error (b pk : List Nat) (len i : Nat) (e : Err) :
    keysLoop b pk len i ≠ some (.error e) := by
  have H : ∀ n i, len - i ≤ n → keysLoop b pk len i ≠ some (.error e) := by
    intro n
    induction n with
    | zero =>
      intro i hle
      rw [keysLoop, if_pos (by omega)]
      simp
    | succ m ih =>
      intro i hle
      rw [keysLoop]
      by_cases hc : i + 32 > len
      · rw [if_pos hc]; simp
      · rw [if_neg hc]
        cases hs : sliceChk b i (i + 32) with
        | none => simp [hs]
        | some chunk =>
          simp only [hs]
          by_cases he : chunk = pk
          · simp [he]
          · rw [if_neg he]
            exact ih (i + 32) (by omega)
  exact H len i (by omega)

theorem kindsLoop_no_error (b rk : List Nat) (count n : Nat) (e : Err) :
    kindsLoop b rk count n ≠ some (.error e) := by
  have H : ∀ m n, count - n ≤ m → kindsLoop b rk count n ≠ some (.error e) := by
    intro m
    induction m with
    | zero =>
      intro n hle
      rw [kindsLoop, if_neg (by omega)]
      simp
    | succ m ih =>
      intro n hle
      rw [kindsLoop]
      by_cases hc : n < count
      · rw [if_pos hc]
        cases hs : sliceChk b (8 + n * 2) (8 + n * 2 + 2) with
        | none => simp [hs]
        | some s =>
          simp only [hs]
          cases ht : tryInto8 s with
          | none => simp [ht]
          | some kb =>
            simp only [ht]
            by_cases he : rk = kb
            · simp [he]
            · rw [if_neg he]
              exact ih (n + 1) (by omega)
      · rw [if_neg hc]; simp
  exact H count n (by omega)

theorem tsLoop_no_error (b tsb : List Nat) (wordlen w : Nat) (e : Err) :
    tsLoop b tsb wordlen w ≠ some (.error e) := by
  have H : ∀ m w, wordlen - 1 - w ≤ m → tsLoop b tsb wordlen w ≠ some (.error e) := by
    intro m
    induction m with
    | zero =>
      intro w hle
      rw [tsLoop, if_neg (by omega)]
      simp
    | succ m ih =>
      intro w hle
      rw [tsLoop]
      by_cases hc : w < wordlen - 1
      · rw [if_pos hc]
        cases hs : sliceChk b (8 + w * 8) (8 + w * 8 + 8) with
        | none => simp [hs]
        | some chunk =>
          simp only [hs]
          by_cases he : chunk = tsb
          · simp [he]
          · rw [if_neg he]
            exact ih (w + 1) (by omega)
      · rw [if_neg hc]; simp
  exact H wordlen w (by omega)

theorem tagsLoop_no_error (b : List Nat) (rtags : List (List Nat)) (len : Nat)
    (hit : Bool) (i : Nat) (e : Err) :
    tagsLoop b rtags len hit i ≠ some (.error e) := by
  have H : ∀ n i, len - i ≤ n → tagsLoop b rtags len hit i ≠ some (.error e) := by
    intro n
    induction n with
    | zero =>
      intro i hle
      rw [tagsLoop, if_neg (by omega)]
      simp
    | succ m ih =>
      intro i hle
      rw [tagsLoop]
      by_cases hc : len > i + 3
      · rw [if_pos hc]
        by_cases hb : i + 2 < b.length
        · rw [if_pos hb]
          cases hs : sliceChk b i (i + 3 + idx b (i + 2)) with
          | none => simp [hs]
          | some chunk =>
            simp only [hs]
            by_cases he : rtags.contains chunk = true
            · have hm : chunk ∈ rtags := by simpa using he
              simp [hm]
            · rw [if_neg he]
              exact ih (i + 3 + idx b (i + 2)) (by omega)
        · rw [if_neg hb]; simp
      · rw [if_neg hc]; simp
  exact H len i (by omega)

theorem excludeLoop_no_error (b idB adB : List Nat) (wordlen i : Nat) (e : Err) :
    excludeLoop b idB adB wordlen i ≠ some (.error e) := by
  have H : ∀ n i, wordlen - i ≤ n → excludeLoop b idB adB wordlen i ≠ some (.error e) := by
    intro n
    induction n with
    | zero =>
      intro i hle
      rw [excludeLoop, if_neg (by omega)]
      simp
    | succ m ih =>
      intro i hle
      rw [excludeLoop]
      by_cases hc : i < wordlen
      · rw [if_pos hc]
        cases hs : sliceChk b (i * 8) (i * 8 + 8) with
        | none => simp [hs]
        | some chunk =>
          simp only [hs]
          by_cases h1 : sub idB 0 32 = chunk
          · simp [h1]
          · rw [if_neg h1]
            by_cases h2 : sub adB 0 32 = chunk
            · simp [h2]
            · rw [if_neg h2]
              exact ih (i + 1) (by omega)
      · rw [if_neg hc]; simp
  exact H wordlen i (by omega)

theorem tsFromBytes_error_shape (l : List Nat) (e : Err) :
    tsFromBytes l = .error e → e = .timeOutOfRange := by
  unfold tsFromBytes
  split <;> intro h <;> simp_all

/-- The only element-level error `Filter::matches` suppresses,
`InvalidFilterElementForFunction`, arises exactly from the two received-time
element types 0x82 (`ReceivedSince`) and 0x83 (`ReceivedUntil`). -/
theorem feMatches_ifeff_iff (fe : List Nat) (r : Record) :
    feMatches fe r = some (.error .invalidFilterElementForFunction)
      ↔ (idx fe 0 = 0x82 ∨ idx fe 0 = 0x83) := by
  constructor
  · intro h
    unfold feMatches at h
    by_cases c1 : idx fe 0 = 0x01
    · exact absurd h (by simp [c1, keysLoop_no_error])
    by_cases c2 : idx fe 0 = 0x02
    · exact absurd h (by simp [c1, c2, keysLoop_no_error])
    by_cases c3 : idx fe 0 = 0x03
    · rw [if_neg c1, if_neg c2, if_pos c3] at h
      split at h
      · simp at h
      · exact absurd h (kindsLoop_no_error _ _ _ _ _)
    by_cases c4 : idx fe 0 = 0x04
    · rw [if_neg c1, if_neg c2, if_neg c3, if_pos c4] at h
      split at h
      · simp at h
      · exact absurd h (tsLoop_no_error _ _ _ _ _)
    by_cases c5 : idx fe 0 = 0x05
    · exact absurd h (by simp [c1, c2, c3, c4, c5, tagsLoop_no_error])
    by_cases c6 : idx fe 0 = 0x80
    · rw [if_neg c1, if_neg c2, if_neg c3, if_neg c4, if_neg c5, if_pos c6] at h
      cases hs : sliceChk fe 8 16 with
      | none => rw [hs] at h; simp at h
      | some s =>
        simp only [hs] at h
        cases ht : tsFromBytes s with
        | error e2 =>
          simp only [ht] at h
          rw [tsFromBytes_error_shape s e2 ht] at h
          simp at h
        | ok v => simp only [ht] at h; simp at h
    by_cases c7 : idx fe 0 = 0x81
    · rw [if_neg c1, if_neg c2, if_neg c3, if_neg c4, if_neg c5, if_neg c6, if_pos c7] at h
      cases hs : sliceChk fe 8 16 with
      | none => rw [hs] at h; simp at h
      | some s =>
        simp only [hs] at h
        cases ht : tsFromBytes s with
        | error e2 =>
          simp only [ht] at h
          rw [tsFromBytes_error_shape s e2 ht] at h
          simp at h
        | ok v => simp only [ht] at h; simp at h
    by_cases c8 : idx fe 0 = 0x82
    · exact Or.inl c8
    by_cases c9 : idx fe 0 = 0x83
    · exact Or.inr c9
    by_cases c10 : idx fe 0 = 0x84
    · exact absurd h (by simp [c1, c2, c3, c4, c5, c6, c7, c8, c9, c10, excludeLoop_no_error])
    by_cases c11 : idx fe 0 = 0x85
    · exact absurd h
        (by simp [c1, c2, c3, c4, c5, c6, c7, c8, c9, c10, c11, tagsLoop_no_error])
    · rw [if_neg c1, if_neg c2, if_neg c3, if_neg c4, if_neg c5, if_neg c6, if_neg c7,
        if_neg c8, if_neg c9, if_neg c10, if_neg c11] at h
      simp at h
  · intro h
    unfold feMatches
    rcases h with h | h <;> simp [h]

/-- C4: `Filter::matches` iterates the filter's elements in order and:
suppresses exactly the `InvalidFilterElementForFunction` element errors,
which arise precisely from the `ReceivedSince` (0x82) and `ReceivedUntil`
(0x83) element types; short-circuits to `Ok(false)` as soon as an element
evaluates false; fails with `UnknownFilterElement` on reaching an element
whose type byte is not one of the defined types; propagates every other
element error; and returns `Ok(true)` when the elements are exhausted with
every non-skipped element true. -/
theorem filter_matches_loop_spec (r : Record) :
    (∀ B, filterMatches B r = matchesFrom B r 8)
    ∧ (∀ fe, feMatches fe r = some (.error .invalidFilterElementForFunction)
        ↔ (idx fe 0 = 0x82 ∨ idx fe 0 = 0x83))
    ∧ (∀ B o, B.length < o + 8 → matchesFrom B r o = some (.ok true))
    ∧ (∀ B o, ¬ B.length < o + 8 → idx B (o + 1) ≠ 0 →
        ¬ B.length < o + idx B (o + 1) * 8 → (idx B o = 0x82 ∨ idx B o = 0x83) →
        matchesFrom B r o = matchesFrom B r (o + idx B (o + 1) * 8))
    ∧ (∀ B o, ¬ B.length < o + 8 → idx B (o + 1) ≠ 0 →
        ¬ B.length < o + idx B (o + 1) * 8 →
        feMatches (sub B o (o + idx B (o + 1) * 8)) r = some (.ok false) →
        matchesFrom B r o = some (.ok false))
    ∧ (∀ B o, ¬ B.length < o + 8 → idx B (o + 1) ≠ 0 →
        ¬ B.length < o + idx B (o + 1) * 8 →
        feMatches (sub B o (o + idx B (o + 1) * 8)) r = some (.ok true) →
        matchesFrom B r o = matchesFrom B r (o + idx B (o + 1) * 8))
    ∧ (∀ B o, ¬ B.length < o + 8 → idx B (o + 1) ≠ 0 →
        ¬ B.length < o + idx B (o + 1) * 8 →
        idx B o ∉ ([1, 2, 3, 4, 5, 0x80, 0x81, 0x82, 0x83, 0x84, 0x85] : List Nat) →
        matchesFrom B r o = some (.error (.unknownFilterElement (idx B o))))
    ∧ (∀ B o e, ¬ B.length < o + 8 → idx B (o + 1) ≠ 0 →
        ¬ B.length < o + idx B (o + 1) * 8 →
        feMatches (sub B o (o + idx B (o + 1) * 8)) r = some (.error e) →
        e ≠ .invalidFilterElementForFunction →
        matchesFrom B r o = some (.error e)) := by
  refine ⟨fun B => rfl, fun fe => feMatches_ifeff_iff fe r, ?_, ?_, ?_, ?_, ?_, ?_⟩
  · intro B o h
    rw [matchesFrom, dif_pos h]
  · intro B o h1 h2 h3 hty
    have h0 : idx (sub B o (o + idx B (o + 1) * 8)) 0 = idx B o := by
      have hx := idx_sub B o (o + idx B (o + 1) * 8) 0 (by omega)
      simpa using hx
    have hfe : feMatches (sub B o (o + idx B (o + 1) * 8)) r
        = some (.error .invalidFilterElementForFunction) := by
      apply (feMatches_ifeff_iff _ r).mpr
      rw [h0]
      exact hty
    rw [matchesFrom, dif_neg h1, dif_neg h2, dif_neg h3]
    simp only [hfe]
    simp
  · intro B o h1 h2 h3 hfe
    rw [matchesFrom, dif_neg h1, dif_neg h2, dif_neg h3]
    simp only [hfe]
  · intro B o h1 h2 h3 hfe
    rw [matchesFrom, dif_neg h1, dif_neg h2, dif_neg h3]
    simp only [hfe]
  · intro B o h1 h2 h3 hnot
    have h0 : idx (sub B o (o + idx B (o + 1) * 8)) 0 = idx B o := by
      have hx := idx_sub B o (o + idx B (o + 1) * 8) 0 (by omega)
      simpa using hx
    simp only [List.mem_cons, List.mem_singleton, not_or] at hnot
    obtain ⟨n1, n2, n3, n4, n5, n6, n7, n8, n9, n10, n11, -⟩ := hnot
    have hfe : feMatches (sub B o (o + idx B (o + 1) * 8)) r
        = some (.error (.unknownFilterElement (idx B o))) := by
      unfold feMatches
      rw [h0, if_neg n1, if_neg n2, if_neg n3, if_neg n4, if_neg n5, if_neg n6, if_neg n7,
        if_neg n8, if_neg n9, if_neg n10, if_neg n11]
    rw [matchesFrom, dif_neg h1, dif_neg h2, dif_neg h3]
    simp only [hfe]
    simp
  · intro B o e h1 h2 h3 hfe hne
    rw [matchesFrom, dif_neg h1, dif_neg h2, dif_neg h3]
    simp only [hfe]
    rw [if_neg hne]

/-- Witness for C4 at a concrete filter whose single element is a
`ReceivedSince` element: the loop skips it. -/
theorem filter_matches_loop_spec_witness :
    matchesFrom (List.replicate 8 0 ++ [130, 1, 0, 0, 0, 0, 0, 0]) c1Record 8
      = matchesFrom (List.replicate 8 0 ++ [130, 1, 0, 0, 0, 0, 0, 0]) c1Record
          (8 + idx (List.replicate 8 0 ++ [130, 1, 0, 0, 0, 0, 0, 0]) (8 + 1) * 8) :=
  (filter_matches_loop_spec c1Record).2.2.2.1 _ 8 (by decide) (by decide) (by decide)
    (by decide)

/-! Filter parsing (`Filter::from_bytes` in `src/filter/mod.rs`). -/

/-- Rust `FilterElement::verify_length`. -/
def feVerifyLength (input : List Nat) : Except Err Nat :=
  if input.length < 8 then .error .endOfInput
  else if input.length < idx input 1 * 8 then .error .invalidLength
  else .ok (idx input 1 * 8)

/-- The element-walking loop of `Filter::from_bytes` (`while i < input.len()`),
with explicit fuel: the Rust loop advances `i` by the element length returned
by `FilterElement::from_bytes`, which is ZERO when the element's word-length
byte is zero, so the loop then never advances; `none` for every fuel value
renders that divergence. -/
def fbLoop (input : List Nat) (i fuel : Nat) : Option (Except Err Unit) :=
  match fuel with
  | 0 => none
  | fuel + 1 =>
    if i < input.length then
      match feVerifyLength (input.drop i) with
      | .error e => some (.error e)
      | .ok felen => fbLoop input (i + felen) fuel
    else some (.ok ())

/-- Rust `Filter::from_bytes(input)` with explicit fuel for its loop. -/
def filterFromBytes (input : List Nat) (fuel : Nat) : Option (Except Err (List Nat)) :=
  if input.length < 8 then some (.error .endOfInput)
  else if u16le input 0 % 8 ≠ 0 then some (.error .invalidLength)
  else if input.length < u16le input 0 then some (.error .endOfInput)
  else
    match fbLoop input 8 fuel with
    | none => none
    | some (.error e) => some (.error e)
    | some (.ok ()) => some (.ok (input.take (u16le input 0)))

/-- C5: `Filter::from_bytes` does NOT terminate on every input: on the
16-byte filter below, whose single element has word-length byte 0, the
parsing loop never advances, so no amount of fuel completes it. -/
theorem filter_from_bytes_diverges (fuel : Nat) :
    filterFromBytes [16, 0, 0, 0, 0, 0, 0, 0, 1, 0, 0, 0, 0, 0, 0, 0] fuel = none := by
  have hloop : ∀ f, fbLoop [16, 0, 0, 0, 0, 0, 0, 0, 1, 0, 0, 0, 0, 0, 0, 0] 8 f = none := by
    intro f
    induction f with
    | zero => rfl
    | succ m ih =>
      simp only [fbLoop]
      norm_num [feVerifyLength, idx]
      exact ih
  unfold filterFromBytes
  rw [if_neg (by decide), if_neg (by decide), if_neg (by decide), hloop fuel]

/-! Message framing (`src/message.rs`, the module `src/lib.rs` wires in). -/

/-- The defined `MessageType` byte values (`MessageType::from_u8`). -/
def msgTypeKnown (t : Nat) : Bool :=
  [1, 2, 3, 4, 5, 0x10, 0x80, 0x81, 0x82, 0x83, 0x90, 0xF0].contains t

/-- The defined `QueryClosedCode` byte values (`QueryClosedCode::from_u8`). -/
def queryClosedCodeKnown (u : Nat) : Bool :=
  [1, 0x10, 0x11, 0x12, 0x13, 0x14, 0x30, 0xF0, 0xFF].contains u

/-- The defined `SubmissionResultCode` byte values
(`SubmissionResultCode::from_u8`). -/
def submissionResultCodeKnown (u : Nat) : Bool :=
  [1, 2, 3, 0x10, 0x12, 0x13, 0x14, 0x15, 0x16, 0xF0, 0xFF].contains u

/-- Rust `Address::verify` (`src/address.rs`): top bit of byte 0 must be set
and the embedded key at bytes 16..48 must be a valid Ed25519 point; the
on-curve check is the external primitive `pkValid`. -/
def addressVerify (pkValid : List Nat → Bool) (b : List Nat) : Except Err Unit :=
  if ¬ (idx b 0).testBit 7 then .error .invalidAddressBytes
  else if pkValid (sub b 16 48) then .ok () else .error .ed25519

/-- Rust `Reference::verify` (`src/reference.rs`). -/
def refVerify (pkValid : List Nat → Bool) (b : List Nat) : Except Err Unit :=
  if (idx b 0).testBit 7 then addressVerify pkValid b else .ok ()

/-- Reference-validation loop of the `Get` arm of `Message::from_bytes`
(`while i < bytes.len()`, 48-byte strides). -/
def getRefsValidate (pkValid : List Nat → Bool) (bytes : List Nat) (i : Nat) :
    Option (Except Err Unit) :=
  if i < bytes.length then
    match sliceChk bytes i (i + 48) with
    | none => none
    | some chunk =>
      match refVerify pkValid chunk with
      | .error e => some (.error e)
      | .ok () => getRefsValidate pkValid bytes (i + 48)
  else some (.ok ())
termination_by bytes.length - i
decreasing_by omega

/-- Per-type validation `match` of `Message::from_bytes`.  `rp` stands for
`Record::from_bytes` — modelled from the spec as an opaque validator, since
the record module is absent from the provided sources. -/
def messageValidate (pkValid : List Nat → Bool) (rp : List Nat → Except Err Unit)
    (bytes : List Nat) : Option (Except Err Unit) :=
  if idx bytes 0 = 0x10 then
    if u24le bytes 1 % 4 ≠ 0 then some (.error .invalidMessage) else some (.ok ())
  else if idx bytes 0 = 0x01 then
    if (u24le bytes 1 - 8) % 48 ≠ 0 then some (.error .invalidMessage)
    else getRefsValidate pkValid bytes 8
  else if idx bytes 0 = 0x02 ∨ idx bytes 0 = 0x03 then
    match filterFromBytes (bytes.drop 8) ((bytes.drop 8).length + 1) with
    | none => none
    | some (.error e) => some (.error e)
    | some (.ok _) => some (.ok ())
  else if idx bytes 0 = 0x04 ∨ idx bytes 0 = 0x81 ∨ idx bytes 0 = 0xF0 then
    if bytes.length ≠ 8 then some (.error .invalidMessage) else some (.ok ())
  else if idx bytes 0 = 0x05 ∨ idx bytes 0 = 0x80 then
    match rp (bytes.drop 8) with
    | .error e => some (.error e)
    | .ok () => some (.ok ())
  else if idx bytes 0 = 0x90 then
    if u24le bytes 1 % 4 ≠ 0 then some (.error .invalidMessage) else some (.ok ())
  else if idx bytes 0 = 0x82 then
    if bytes.length ≠ 8 then some (.error .invalidMessage)
    else if queryClosedCodeKnown (idx bytes 6) then some (.ok ())
    else some (.error .invalidMessage)
  else if idx bytes 0 = 0x83 then
    if bytes.length ≠ 40 then some (.error .invalidMessage)
    else if ¬ submissionResultCodeKnown (idx bytes 4) then some (.error .invalidMessage)
    else if (idx bytes 8).testBit 7 then some (.error .invalidMessage)
    else some (.ok ())
  else some (.ok ())

/-- Rust `Message::from_bytes(bytes)`. -/
def messageFromBytes (pkValid : List Nat → Bool) (rp : List Nat → Except Err Unit)
    (bytes : List Nat) : Option (Except Err (List Nat)) :=
  if bytes.length < 8 then some (.error .invalidMessage)
  else if u24le bytes 1 = bytes.length then
    if msgTypeKnown (idx bytes 0) then
      match messageValidate pkValid rp bytes with
      | none => none
      | some (.error e) => some (.error e)
      | some (.ok ()) => some (.ok bytes)
    else some (.error .invalidMessage)
  else some (.error .invalidMessage)

/-- Rust `Message::new_get(query_id, references)` (the query id given as its
two bytes, each reference as its 48 bytes). -/
def newGet (q0 q1 : Nat) (references : List (List Nat)) : Except Err (List Nat) :=
  if 16777216 ≤ 8 + 48 * references.length then .error .dataTooLong
  else
    .ok ([1, (8 + 48 * references.length) % 256, (8 + 48 * references.length) / 256 % 256,
      (8 + 48 * references.length) / 65536 % 256, q0, q1, 0, 0] ++ references.flatten)

/-- Rust `Message::message_type` (`from_u8(..).unwrap()`; `none` = panic). -/
def messageType (bytes : List Nat) : Option Nat :=
  if msgTypeKnown (idx bytes 0) then some (idx bytes 0) else none

/-- Rust `Message::len`: the 3-byte little-endian length field. -/
def msgLen (bytes : List Nat) : Nat := u24le bytes 1

/-- Rust `Message::query_id`: outer `none` = panic, inner option as in the
source. -/
def queryId (bytes : List Nat) : Option (Option (List Nat)) :=
  match messageType bytes with
  | none => none
  | some t =>
    if t = 1 ∨ t = 2 ∨ t = 3 ∨ t = 4 ∨ t = 0x80 ∨ t = 0x81 ∨ t = 0x82 then
      match sliceChk bytes 4 6 with
      | none => none
      | some q => some (some q)
    else some none

/-- Reference-collecting loop of `Message::references`
(`while i < self.len()`; the `unwrap` on an invalid reference panics). -/
def referencesAcc (pkValid : List Nat → Bool) (bytes : List Nat) (len i : Nat) :
    Option (List (List Nat)) :=
  if i < len then
    match sliceChk bytes i (i + 48) with
    | none => none
    | some chunk =>
      match refVerify pkValid chunk with
      | .error _ => none
      | .ok () => (referencesAcc pkValid bytes len (i + 48)).map (fun rest => chunk :: rest)
  else some []
termination_by len - i
decreasing_by omega

/-- Rust `Message::references`: outer `none` = panic, inner option as in the
source. -/
def references (pkValid : List Nat → Bool) (bytes : List Nat) :
    Option (Option (List (List Nat))) :=
  match messageType bytes with
  | none => none
  | some t =>
    if t = 1 then
      match referencesAcc pkValid bytes (msgLen bytes) 8 with
      | none => none
      | some l => some (some l)
    else some none

theorem flatten_length_48 (rs : List (List Nat)) (h : ∀ r ∈ rs, r.length = 48) :
    rs.flatten.length = 48 * rs.length := by
  induction rs with
  | nil => simp
  | cons r rest ih =>
    simp only [List.flatten_cons, List.length_append, List.length_cons]
    rw [h r (by simp), ih (fun x hx => h x (by simp [hx]))]
    ring

theorem sliceChk_append (pre mid post : List Nat) :
    sliceChk (pre ++ (mid ++ post)) pre.length (pre.length + mid.length) = some mid := by
  unfold sliceChk
  rw [if_pos (by simp [List.length_append])]
  unfold sub
  rw [show pre.length + mid.length - pre.length = mid.length by omega]
  rw [List.drop_left, List.take_left]

theorem getRefsValidate_flatten (pkValid : List Nat → Bool) (rs : List (List Nat)) :
    ∀ pre : List Nat, (∀ rf ∈ rs, rf.length = 48 ∧ refVerify pkValid rf = .ok ()) →
      getRefsValidate pkValid (pre ++ rs.flatten) pre.length = some (.ok ()) := by
  induction rs with
  | nil =>
    intro pre _
    rw [getRefsValidate, if_neg (by simp)]
  | cons rf rest ih =>
    intro pre h
    have hrf := h rf (by simp)
    rw [getRefsValidate]
    rw [if_pos (by simp [List.flatten_cons, List.length_append]; omega)]
    have hslice : sliceChk (pre ++ (rf :: rest).flatten) pre.length (pre.length + 48)
        = some rf := by
      have hx := sliceChk_append pre rf rest.flatten
      rw [hrf.1] at hx
      simpa [List.flatten_cons] using hx
    simp only [hslice, hrf.2]
    have hrec := ih (pre ++ rf) (fun x hx => h x (by simp [hx]))
    rw [List.append_assoc, List.length_append, hrf.1] at hrec
    simpa [List.flatten_cons] using hrec

theorem referencesAcc_flatten (pkValid : List Nat → Bool) (rs : List (List Nat)) :
    ∀ (pre : List Nat) (len : Nat),
      (∀ rf ∈ rs, rf.length = 48 ∧ refVerify pkValid rf = .ok ()) →
      len = pre.length + rs.flatten.length →
      referencesAcc pkValid (pre ++ rs.flatten) len pre.length = some rs := by
  induction rs with
  | nil =>
    intro pre len _ hlen
    rw [referencesAcc, if_neg (by simp at hlen; omega)]
  | cons rf rest ih =>
    intro pre len h hlen
    have hrf := h rf (by simp)
    have hfl : (rf :: rest).flatten.length = 48 + rest.flatten.length := by
      simp [List.flatten_cons, hrf.1]
    rw [referencesAcc]
    rw [if_pos (by omega)]
    have hslice : sliceChk (pre ++ (rf :: rest).flatten) pre.length (pre.length + 48)
        = some rf := by
      have hx := sliceChk_append pre rf rest.flatten
      rw [hrf.1] at hx
      simpa [List.flatten_cons] using hx
    simp only [hslice, hrf.2]
    have hrec := ih (pre ++ rf) len (fun x hx => h x (by simp [hx]))
      (by rw [List.length_append, hrf.1]; omega)
    rw [List.append_assoc, List.length_append, hrf.1] at hrec
    simp only [List.flatten_cons] at hrec ⊢
    rw [hrec]
    rfl

theorem u24_recompose (len : Nat) (h : len < 16777216) :
    len % 256 + 256 * (len / 256 % 256) + 65536 * (len / 65536 % 256) = len := by
  omega

/-- Counterexample for C2 as stated: `Message::new_get` with query id
`[0, 1]` and no references yields the 8-byte message `[1, 8, 0, 0, 0, 1, 0, 0]`;
the little-endian u32 at offsets 4..8 is 256, not the total length 8 — the
length actually lives in the 3 bytes at offsets 1..4 and bytes 4..6 hold the
query id. -/
theorem message_header_u32_counterexample :
    newGet 0 1 [] = .ok [1, 8, 0, 0, 0, 1, 0, 0]
    ∧ u32le [1, 8, 0, 0, 0, 1, 0, 0] 4 = 256
    ∧ ([1, 8, 0, 0, 0, 1, 0, 0] : List Nat).length = 8 := by
  refine ⟨rfl, by decide, by decide⟩

/-- C2 (amended): every message begins with an 8-byte header holding the
type byte at offset 0 and the total length including the header as a 3-byte
little-endian integer at offsets 1..4 (bytes 4..8 are type-specific); every
message accepted by `Message::from_bytes` and every message produced by
`Message::new_get` carries its total length there. -/
theorem message_header_length_le24 (pkValid : List Nat → Bool)
    (rp : List Nat → Except Err Unit) :
    (∀ bytes m, messageFromBytes pkValid rp bytes = some (.ok m) →
      m = bytes ∧ u24le m 1 = m.length ∧ 8 ≤ m.length)
    ∧ (∀ q0 q1 rs m, (∀ r ∈ rs, r.length = 48) →
      newGet q0 q1 rs = .ok m →
      idx m 0 = 1 ∧ u24le m 1 = m.length ∧ sub m 4 6 = [q0, q1]) := by
  constructor
  · intro bytes m h
    unfold messageFromBytes at h
    by_cases h1 : bytes.length < 8
    · rw [if_pos h1] at h; simp at h
    rw [if_neg h1] at h
    by_cases h2 : u24le bytes 1 = bytes.length
    · rw [if_pos h2] at h
      by_cases h3 : msgTypeKnown (idx bytes 0) = true
      · rw [if_pos h3] at h
        cases hv : messageValidate pkValid rp bytes with
        | none => rw [hv] at h; simp at h
        | some v =>
          cases v with
          | error e => rw [hv] at h; simp at h
          | ok u =>
            rw [hv] at h
            simp only [Option.some.injEq, Except.ok.injEq] at h
            subst h
            exact ⟨rfl, h2, by omega⟩
      · rw [if_neg h3] at h; simp at h
    · rw [if_neg h2] at h; simp at h
  · intro q0 q1 rs m hlen h
    unfold newGet at h
    by_cases hc : 16777216 ≤ 8 + 48 * rs.length
    · rw [if_pos hc] at h; simp at h
    · rw [if_neg hc] at h
      simp only [Except.ok.injEq] at h
      subst h
      have hfl : rs.flatten.length = 48 * rs.length := flatten_length_48 rs hlen
      refine ⟨by simp [idx], ?_, by simp [sub]⟩
      have hidx : u24le ([1, (8 + 48 * rs.length) % 256, (8 + 48 * rs.length) / 256 % 256,
          (8 + 48 * rs.length) / 65536 % 256, q0, q1, 0, 0] ++ rs.flatten) 1
          = (8 + 48 * rs.length) % 256 + 256 * ((8 + 48 * rs.length) / 256 % 256)
            + 65536 * ((8 + 48 * rs.length) / 65536 % 256) := by
        simp [u24le, idx]
      rw [hidx, u24_recompose _ (by omega)]
      simp [hfl]
      omega

/-- Witness for C2 (amended) on a concrete accepted message and a concrete
constructed message. -/
theorem message_header_length_le24_witness :
    (messageFromBytes (fun _ => true) (fun _ => .ok ()) [4, 8, 0, 0, 7, 7, 0, 0]
        = some (.ok [4, 8, 0, 0, 7, 7, 0, 0]) →
      [4, 8, 0, 0, 7, 7, 0, 0] = [4, 8, 0, 0, 7, 7, 0, 0]
      ∧ u24le [4, 8, 0, 0, 7, 7, 0, 0] 1 = ([4, 8, 0, 0, 7, 7, 0, 0] : List Nat).length
      ∧ 8 ≤ ([4, 8, 0, 0, 7, 7, 0, 0] : List Nat).length)
    ∧ (idx [1, 8, 0, 0, 9, 9, 0, 0] 0 = 1
      ∧ u24le [1, 8, 0, 0, 9, 9, 0, 0] 1 = ([1, 8, 0, 0, 9, 9, 0, 0] : List Nat).length
      ∧ sub [1, 8, 0, 0, 9, 9, 0, 0] 4 6 = [9, 9]) :=
  ⟨fun h => (message_header_length_le24 (fun _ => true) (fun _ => .ok ())).1 _ _ h,
   (message_header_length_le24 (fun _ => true) (fun _ => .ok ())).2 9 9 [] _
     (by intro r hr; simp at hr) rfl⟩

/-- C9: for every query id and non-empty list of valid references accepted by
`Message::new_get`, parsing the produced message back with
`Message::from_bytes` accepts the same bytes, `query_id()` returns the query
id, and `references()` returns exactly the references in order.  The Ed25519
point check inside `Reference::verify` is the external primitive `pkValid`;
`rp` is the opaque record validator (not reached for a `Get` message). -/
theorem get_message_round_trip (pkValid : List Nat → Bool)
    (rp : List Nat → Except Err Unit) (q0 q1 : Nat) (rs : List (List Nat)) (m : List Nat)
    (hrs : ∀ rf ∈ rs, rf.length = 48 ∧ refVerify pkValid rf = .ok ())
    (hne : rs ≠ [])
    (hok : newGet q0 q1 rs = .ok m) :
    messageFromBytes pkValid rp m = some (.ok m)
    ∧ queryId m = some (some [q0, q1])
    ∧ references pkValid m = some (some rs) := by
  unfold newGet at hok
  by_cases hc : 16777216 ≤ 8 + 48 * rs.length
  · rw [if_pos hc] at hok; simp at hok
  rw [if_neg hc] at hok
  simp only [Except.ok.injEq] at hok
  subst hok
  simp only [List.cons_append, List.nil_append]
  have hfl : rs.flatten.length = 48 * rs.length :=
    flatten_length_48 rs (fun r hr => (hrs r hr).1)
  have hmlen : (1 :: (8 + 48 * rs.length) % 256 :: (8 + 48 * rs.length) / 256 % 256 ::
      (8 + 48 * rs.length) / 65536 % 256 :: q0 :: q1 :: 0 :: 0 :: rs.flatten).length
      = 8 + 48 * rs.length := by
    simp [hfl]
    omega
  have hu24 : u24le (1 :: (8 + 48 * rs.length) % 256 :: (8 + 48 * rs.length) / 256 % 256 ::
      (8 + 48 * rs.length) / 65536 % 256 :: q0 :: q1 :: 0 :: 0 :: rs.flatten) 1
      = 8 + 48 * rs.length := by
    have hidx : u24le (1 :: (8 + 48 * rs.length) % 256 :: (8 + 48 * rs.length) / 256 % 256 ::
        (8 + 48 * rs.length) / 65536 % 256 :: q0 :: q1 :: 0 :: 0 :: rs.flatten) 1
        = (8 + 48 * rs.length) % 256 + 256 * ((8 + 48 * rs.length) / 256 % 256)
          + 65536 * ((8 + 48 * rs.length) / 65536 % 256) := by
      simp [u24le, idx]
    rw [hidx]
    exact u24_recompose _ (by omega)
  have hidx0 : idx (1 :: (8 + 48 * rs.length) % 256 :: (8 + 48 * rs.length) / 256 % 256 ::
      (8 + 48 * rs.length) / 65536 % 256 :: q0 :: q1 :: 0 :: 0 :: rs.flatten) 0 = 1 := by
    simp [idx]
  refine ⟨?_, ?_, ?_⟩
  · unfold messageFromBytes
    rw [if_neg (by rw [hmlen]; omega), if_pos (by rw [hu24, hmlen]),
      if_pos (by rw [hidx0]; decide)]
    have hval : messageValidate pkValid rp
        (1 :: (8 + 48 * rs.length) % 256 :: (8 + 48 * rs.length) / 256 % 256 ::
          (8 + 48 * rs.length) / 65536 % 256 :: q0 :: q1 :: 0 :: 0 :: rs.flatten)
        = some (.ok ()) := by
      unfold messageValidate
      simp only [hidx0]
      norm_num
      rw [hu24, if_pos (by omega)]
      have hg := getRefsValidate_flatten pkValid rs
        [1, (8 + 48 * rs.length) % 256, (8 + 48 * rs.length) / 256 % 256,
          (8 + 48 * rs.length) / 65536 % 256, q0, q1, 0, 0] hrs
      simp only [List.cons_append, List.nil_append, List.length_cons, List.length_nil] at hg
      exact hg
    rw [hval]
  · unfold queryId messageType
    simp only [hidx0]
    rw [if_pos (by decide)]
    have hslice : sliceChk (1 :: (8 + 48 * rs.length) % 256 :: (8 + 48 * rs.length) / 256 % 256 ::
        (8 + 48 * rs.length) / 65536 % 256 :: q0 :: q1 :: 0 :: 0 :: rs.flatten) 4 6
        = some [q0, q1] := by
      unfold sliceChk
      rw [if_pos (by rw [hmlen]; omega)]
      simp [sub]
    simp [hslice]
  · unfold references messageType msgLen
    simp only [hidx0]
    rw [if_pos (by decide)]
    have hacc := referencesAcc_flatten pkValid rs
      [1, (8 + 48 * rs.length) % 256, (8 + 48 * rs.length) / 256 % 256,
        (8 + 48 * rs.length) / 65536 % 256, q0, q1, 0, 0] (8 + 48 * rs.length) hrs
      (by simp [hfl])
    simp only [List.cons_append, List.nil_append, List.length_cons, List.length_nil] at hacc
    simp [hu24, hacc]

/-- Witness for C9 with query id `[0, 1]` and one id-type reference. -/
theorem get_message_round_trip_witness :
    messageFromBytes (fun _ => true) (fun _ => .ok ())
        ([1, 56, 0, 0, 0, 1, 0, 0] ++ List.replicate 48 0)
      = some (.ok ([1, 56, 0, 0, 0, 1, 0, 0] ++ List.replicate 48 0))
    ∧ queryId ([1, 56, 0, 0, 0, 1, 0, 0] ++ List.replicate 48 0) = some (some [0, 1])
    ∧ references (fun _ => true) ([1, 56, 0, 0, 0, 1, 0, 0] ++ List.replicate 48 0)
      = some (some [List.replicate 48 0]) :=
  get_message_round_trip (fun _ => true) (fun _ => .ok ()) 0 1 [List.replicate 48 0]
    ([1, 56, 0, 0, 0, 1, 0, 0] ++ List.replicate 48 0)
    (by intro rf hrf
        simp only [List.mem_singleton] at hrf
        subst hrf
        exact ⟨by decide, by decide⟩)
    (by simp)
    (by decide)

end Mosaic
